import Mathlib

/-!
Verification of the rule-driven field-extraction engine in `extractor.py`
(sectionizer, wildcard rule expansion, multi-strategy field resolver,
postprocessor, row assembly).

Python strings are modelled as `List Char` (`Str`); Python dicts as
association lists in insertion order, where writing an existing key updates
it in place and writing a fresh key appends it (CPython dict semantics).
Character-class predicates (`\w`, `\s`, `str.isupper`, `str.istitle`,
`str.lower`) are modelled at Python's documented semantics restricted to
the ASCII range plus the specific non-ASCII whitespace code points that
matter here; the documents this pipeline feeds in are ASCII-per-class in
all class positions, so the restriction is behaviour-preserving.
-/

namespace Extractor

/-- Python `str` as a list of characters. -/
abbrev Str := List Char

/-! ### Character classes -/

/-- Python `\s` / `str.strip()` whitespace (ASCII part plus the Unicode
whitespace code points; sufficient for the texts handled here). -/
def pyIsSpace (c : Char) : Bool :=
  c = ' ' || c = '\t' || c = '\n' || c = '\r' || c = '\x0b' || c = '\x0c' ||
  c = '\x1c' || c = '\x1d' || c = '\x1e' || c = '\x1f' ||
  c = '\u0085' || c = ' ' || c = ' ' ||
  (' ' ≤ c && c ≤ ' ') ||
  c = ' ' || c = ' ' || c = ' ' || c = ' ' || c = '　'

/-- Line-boundary characters recognised by Python `str.splitlines`
(besides the two-character boundary `\r\n`). -/
def isLineBreak (c : Char) : Bool :=
  c = '\n' || c = '\r' || c = '\x0b' || c = '\x0c' ||
  c = '\x1c' || c = '\x1d' || c = '\x1e' ||
  c = '\u0085' || c = ' ' || c = ' '

/-- Python regex `\w` (ASCII restriction): letters, digits, underscore. -/
def isWordChar (c : Char) : Bool :=
  c.isAlphanum || c = '_'

/-- The character class `[\w ,/()]` of the header regex in `sectionize`. -/
def isHeaderClassChar (c : Char) : Bool :=
  isWordChar c || c = ' ' || c = ',' || c = '/' || c = '(' || c = ')'

/-- A cased character (ASCII restriction), as used by `str.isupper` and
`str.istitle`. -/
def isCased (c : Char) : Bool :=
  c.isUpper || c.isLower

/-- Python `str.isupper`: at least one cased character, and no lower-case
character. -/
def pyIsUpper (l : Str) : Bool :=
  l.any isCased && l.all (fun c => !c.isLower)

/-- Worker for `pyIsTitle`: carries whether the previous character was
cased and whether any cased character has been seen. -/
def pyIsTitleAux : Str → Bool → Bool → Bool
  | [], _, seen => seen
  | c :: cs, prev, seen =>
    if c.isUpper then
      if prev then false else pyIsTitleAux cs true true
    else if c.isLower then
      if prev then pyIsTitleAux cs true true else false
    else
      pyIsTitleAux cs false seen

/-- Python `str.istitle`: upper-case letters only after uncased characters,
lower-case letters only after cased ones, and at least one cased character. -/
def pyIsTitle (l : Str) : Bool :=
  pyIsTitleAux l false false

/-- Python `str.lower` (ASCII restriction). -/
def pyToLower (l : Str) : Str :=
  l.map Char.toLower

/-! ### splitlines, join, strip -/

/-- Worker for `splitlines`; `cur` is the line being accumulated.  The
two-character boundary `\r\n` counts as a single line break, so the
recursion looks at two characters at a time. -/
def splitlinesAux : Str → Str → List Str
  | [], cur => if cur = [] then [] else [cur]
  | [c], cur => if isLineBreak c then [cur] else [cur ++ [c]]
  | c :: d :: rest, cur =>
    if c = '\r' && d = '\n' then cur :: splitlinesAux rest []
    else if isLineBreak c then cur :: splitlinesAux (d :: rest) []
    else splitlinesAux (d :: rest) (cur ++ [c])

/-- Python `str.splitlines()`: split at line boundaries, no trailing empty
line for a trailing boundary, and the empty string yields no lines. -/
def splitlines (l : Str) : List Str :=
  splitlinesAux l []

/-- Python `"\n".join(...)` on a list of lines. -/
def joinNL : List Str → Str
  | [] => []
  | [l] => l
  | l :: l2 :: rest => l ++ '\n' :: joinNL (l2 :: rest)

/-- Python `str.strip()`: drop whitespace from both ends. -/
def pyStrip (l : Str) : Str :=
  ((l.dropWhile pyIsSpace).reverse.dropWhile pyIsSpace).reverse

/-- Python `str.strip(chars)`: drop the given characters from both ends. -/
def pyStripChars (chars : Str) (l : Str) : Str :=
  (((l.dropWhile (chars.contains ·)).reverse.dropWhile (chars.contains ·)).reverse)

/-! ### Sectionizer -/

/-- The header-line test of `sectionize`, combining the regex
`^([\w ,/()]+):\s*$` (via `re.match`) with the casing condition
`line.isupper() or line.istitle()`; on success it returns the captured
group lower-cased, exactly the value assigned to `current`.  Because `:`
is not in the character class, the regex matches precisely when the line
is a nonempty run of class characters, then `:`, then only whitespace, and
the group is that maximal run. -/
def headerName (line : Str) : Option Str :=
  let g := line.takeWhile isHeaderClassChar
  match line.drop g.length with
  | ':' :: rest =>
    if g ≠ [] && rest.all pyIsSpace && (pyIsUpper line || pyIsTitle line) then
      some (pyToLower g)
    else none
  | _ => none

/-- Look a key up in an insertion-ordered association list
(Python `dict.__getitem__` / `in`). -/
def alGet {α : Type} : List (Str × α) → Str → Option α
  | [], _ => none
  | (k, v) :: rest, key => if k = key then some v else alGet rest key

/-- Python `d[k] = v`: update in place if present, else append. -/
def alSet {α : Type} : List (Str × α) → Str → α → List (Str × α)
  | [], key, v => [(key, v)]
  | (k, w) :: rest, key, v =>
    if k = key then (k, v) :: rest else (k, w) :: alSet rest key v

/-- Python `sections[current] = []` in `sectionize`. -/
def alReset (m : List (Str × List Str)) (k : Str) : List (Str × List Str) :=
  alSet m k []

/-- Python `sections.setdefault(current, []).append(line)` in `sectionize`. -/
def alAppend : List (Str × List Str) → Str → Str → List (Str × List Str)
  | [], key, line => [(key, [line])]
  | (k, v) :: rest, key, line =>
    if k = key then (k, v ++ [line]) :: rest else (k, v) :: alAppend rest key line

/-- The line loop of `sectionize`: dict of accumulated line lists plus the
`current` section name. -/
def sectionizeAux : List Str → List (Str × List Str) → Str → List (Str × List Str)
  | [], secs, _ => secs
  | line :: rest, secs, current =>
    match headerName line with
    | some name => sectionizeAux rest (alReset secs name) name
    | none => sectionizeAux rest (alAppend secs current line) current

/-- `sectionize(text)` from `extractor.py`: slice the document into
`{header -> body}`, bodies joined with newlines and stripped. -/
def sectionize (text : Str) : List (Str × Str) :=
  (sectionizeAux (splitlines text) [] "_preamble".data).map
    (fun p => (p.1, pyStrip (joinNL p.2)))

/-! ### Postprocessor -/

/-- Python `value.split(sep, 1)` as a pair, for the case where `sep`
occurs (the only case `postprocess` exercises it in). -/
def pySplitOnce (sep : Char) : Str → Str × Str
  | [] => ([], [])
  | c :: cs =>
    if c = sep then ([], cs)
    else
      let p := pySplitOnce sep cs
      (c :: p.1, p.2)

/-- The literal `"  "` passed to `value.strip(...)` in `postprocess`
(a non-breaking space and a space). -/
def stripArg : Str := [' ', ' ']

/-- `postprocess(label, value)` from `extractor.py`: split a combined
`LAST, FIRST` value for the `last`/`first` labels, otherwise strip
non-breaking spaces and spaces. -/
def postprocess (label : Str) (value : Str) : Str :=
  if (label = "last".data || label = "first".data) && value.contains ',' then
    let p := pySplitOnce ',' value
    if label = "last".data then pyStrip p.1 else pyStrip p.2
  else
    pyStripChars stripArg value

/-! ### Rule store and wildcard expander -/

/-- A loaded extraction rule (one YAML mapping value in `label_map.yml`):
`search` variants, strategy `type`, optional regex `pattern`, optional
`keep_n_sentences`, and the `row` index attached by wildcard expansion. -/
structure Rule where
  type : Str
  search : List Str
  pattern : Option Str
  keep_n_sentences : Option Nat
  row : Option Nat
deriving DecidableEq

/-- `load_rules()` from `extractor.py`:
`yaml.safe_load(Path("label_map.yml").read_text())`.  The filesystem is
modelled as an `Option` holding the parsed content of `label_map.yml` when
the file exists; `Path.read_text` raises `FileNotFoundError` when it does
not, modelled as the `error` branch.  No validation of any kind is
performed on the loaded rules. -/
def load_rules (file : Option (List (Str × Rule))) : Except Str (List (Str × Rule)) :=
  match file with
  | none => Except.error "FileNotFoundError: label_map.yml".data
  | some rules => Except.ok rules

/-- Decimal digit characters of a positive number, most significant first;
the fuel argument (any bound on `n`) makes the division recursion
structural. -/
def natStrGo : Nat → Nat → Str
  | 0, _ => []
  | fuel + 1, n => if n = 0 then [] else natStrGo fuel (n / 10) ++ [Nat.digitChar (n % 10)]

/-- Python `str(n)` for a natural number (decimal digits). -/
def natStr (n : Nat) : Str :=
  if n = 0 then ['0'] else natStrGo n n

/-- Read a decimal digit string back as a number (used to invert
`natStr`). -/
def decodeDec (l : Str) : Nat :=
  l.foldl (fun acc c => acc * 10 + (c.toNat - 48)) 0

/-- Python `label.replace("*", r)`: replace every `*` by `r`. -/
def replaceStar : Str → Str → Str
  | [], _ => []
  | c :: cs, r => if c = '*' then r ++ replaceStar cs r else c :: replaceStar cs r

/-- `expand_wildcards(rules, max_n)` from `extractor.py`: a label pattern
containing `*` emits `max_n` concrete rules with the marker replaced by
`1..max_n` and `row = i - 1`; other rules are copied unchanged. -/
def expand_wildcards (rules : List (Str × Rule)) (max_n : Nat) : List (Str × Rule) :=
  rules.foldl
    (fun out lr =>
      if lr.1.contains '*' then
        (List.range max_n).foldl
          (fun out2 k =>
            alSet out2 (replaceStar lr.1 (natStr (k + 1))) { lr.2 with row := some k })
          out
      else alSet out lr.1 lr.2)
    []

/-! ### single_line strategy

The rule regex is `rf"{re.escape(v)}[:\s]*([^\n]{1,200}?)(?:\s\s|\n|$)"`
searched case-insensitively.  Since the variant is escaped it matches as a
case-insensitive literal; `re.search` takes the leftmost start position at
which the whole pattern matches, with `[:\s]*` greedy (longest first) and
the capture group lazy (shortest first, at most 200 characters). -/

/-- Case-insensitive literal prefix match (the `re.escape(v)` part under
`re.I`, ASCII case folding). -/
def matchLitCI : Str → Str → Bool
  | [], _ => true
  | _ :: _, [] => false
  | p :: ps, c :: cs => (p.toLower = c.toLower) && matchLitCI ps cs

/-- A character matched by `[:\s]`. -/
def colonSpace (c : Char) : Bool :=
  c = ':' || pyIsSpace c

/-- The terminator `(?:\s\s|\n|$)` applied to the text remaining after the
capture group; `$` (no `re.M`) matches at the end of the text or just
before a trailing newline. -/
def slTerm : Str → Bool
  | [] => true
  | [c] => c = '\n'
  | c1 :: c2 :: _ => (pyIsSpace c1 && pyIsSpace c2) || c1 = '\n'

/-- The lazy capture `([^\n]{1,200}?)` followed by the terminator: grow
the captured text one non-newline character at a time (shortest first, up
to the fuel bound of 200) until the terminator matches. -/
def slCaptureAux : Nat → Str → Str → Option Str
  | 0, _, _ => none
  | fuel + 1, acc, rest =>
    match rest with
    | [] => none
    | c :: cs =>
      if c = '\n' then none
      else if slTerm cs then some (acc ++ [c])
      else slCaptureAux fuel (acc ++ [c]) cs

/-- Backtracking for the greedy `[:\s]*`: try consuming `k` colon/space
characters, longest first. -/
def slAfterLitAux (s : Str) : Nat → Option Str
  | 0 => slCaptureAux 200 [] s
  | k + 1 =>
    match slCaptureAux 200 [] (s.drop (k + 1)) with
    | some v => some v
    | none => slAfterLitAux s k

/-- Continue the rule pattern after the literal variant: `[:\s]*` then the
lazy capture and terminator. -/
def slAfterLit (s : Str) : Option Str :=
  slAfterLitAux s (s.takeWhile colonSpace).length

/-- `re.search` of the whole single_line pattern: scan start positions
left to right, returning the first captured group. -/
def slSearch (v : Str) : Str → Option Str
  | [] => none
  | c :: cs =>
    match (if matchLitCI v (c :: cs) then slAfterLit ((c :: cs).drop v.length) else none) with
    | some val => some val
    | none => slSearch v cs

/-- The inner variant loop of the single_line branch: the first variant
whose pattern matches in this section assigns `value = m.group(1).strip()`
and breaks (even when the stripped value is empty). -/
def singleLineSec (variants : List Str) (sec : Str) : Option Str :=
  match variants with
  | [] => none
  | v :: vs =>
    match slSearch v sec with
    | some m => some (pyStrip m)
    | none => singleLineSec vs sec

/-- The section loop of the single_line branch: a non-empty value breaks
out, an empty or missing one falls through to the next candidate section;
the result is `""` when no section produces a non-empty value. -/
def singleLineValue (variants : List Str) : List Str → Str
  | [] => []
  | sec :: rest =>
    match singleLineSec variants sec with
    | some val => if val ≠ [] then val else singleLineValue variants rest
    | none => singleLineValue variants rest

/-! ### paragraph strategy -/

/-- Detect a sentence split of `first_n_sentences` at the current
position: the previous character is `.`/`!`/`?`, a non-empty whitespace
run follows, and the character after the run is an upper-case letter (the
regex `(?<=[.!?])\s+(?=[A-Z])`, whose greedy `\s+` always consumes the
whole run).  Returns the length of the consumed run. -/
def sentenceBreak (prev : Option Char) (rest : Str) : Option Nat :=
  match prev with
  | none => none
  | some p =>
    if p = '.' || p = '!' || p = '?' then
      let run := rest.takeWhile pyIsSpace
      if run ≠ [] then
        match rest.drop run.length with
        | u :: _ => if u.isUpper then some run.length else none
        | [] => none
      else none
    else none

/-- Scan for sentence splits, accumulating the current segment. -/
def splitSentencesAux : Str → Str → Option Char → List Str
  | [], cur, _ => [cur]
  | c :: cs, cur, prev =>
    match sentenceBreak prev (c :: cs) with
    | some k => cur :: splitSentencesAux (cs.drop (k - 1)) [] none
    | none => splitSentencesAux cs (cur ++ [c]) (some c)
  termination_by l _ _ => l.length
  decreasing_by
    · simp only [List.length_drop, List.length_cons]
      omega
    · simp

/-- Python `re.split(r'(?<=[.!?])\s+(?=[A-Z])', t)`. -/
def splitSentences (t : Str) : List Str :=
  splitSentencesAux t [] none

/-- Python `" ".join(...)`. -/
def joinSpace : List Str → Str
  | [] => []
  | [l] => l
  | l :: l2 :: rest => l ++ ' ' :: joinSpace (l2 :: rest)

/-- `first_n_sentences(text, n)` from `extractor.py` (the source defaults
`n` to 2; call sites here always pass it explicitly). -/
def first_n_sentences (text : Str) (n : Nat) : Str :=
  joinSpace ((splitSentences (pyStrip text)).take n)

/-! ### Field resolver and row assembly -/

/-- Candidate-section selection of `extract`: the bodies of all sections
whose name matches some search variant under `re.search(v, name, re.I)`,
or the whole document text when none does.  The source uses each variant
as a regex pattern; variants in this rule set are metacharacter-free, so
the search is modelled as case-insensitive substring search. -/
def reSearchLit (pat : Str) : Str → Bool
  | [] => matchLitCI pat []
  | c :: cs => matchLitCI pat (c :: cs) || reSearchLit pat cs

/-- The `candidate_secs` computation of `extract`. -/
def candidateSecs (variants : List Str) (sections : List (Str × Str)) (text : Str) :
    List Str :=
  let cands := (sections.filter (fun p => variants.any (fun v => reSearchLit v p.1))).map
    Prod.snd
  if cands = [] then [text] else cands

/-- The strategy dispatch in the body of `extract`'s rule loop: candidate
sections, then `single_line` or `paragraph`; every other `type` falls into
the catch-all `else` branch producing `""`.  The candidate list is never
empty (`or [text]`), so `headD []` only names the source's
`candidate_secs[0]`. -/
def resolveValue (sections : List (Str × Str)) (text : Str) (rule : Rule) : Str :=
  let variants := rule.search
  let candidate_secs := candidateSecs variants sections text
  if rule.type = "single_line".data then
    singleLineValue variants candidate_secs
  else if rule.type = "paragraph".data then
    first_n_sentences (candidate_secs.headD []) (rule.keep_n_sentences.getD 2)
  else []

/-- `extract` from `extractor.py`, with the document text, the parsed rule
file and the label schema (the source's global `LABELS`) as parameters in
place of the file reads.  Labels are initialised to the empty string, then
each expanded rule's resolved, postprocessed value is written into the
row under its label. -/
def extract (labels : List Str) (text : Str) (rulesYaml : List (Str × Rule)) :
    List (Str × Str) :=
  let sections := sectionize text
  let rules := expand_wildcards rulesYaml 30
  let row0 : List (Str × Str) := labels.foldl (fun r lab => alSet r lab []) []
  rules.foldl
    (fun row lr => alSet row lr.1 (postprocess lr.1 (resolveValue sections text lr.2)))
    row0

/-- The `ordered` list of `write_row` from `extractor.py`:
`[row.get(h, "") for h in headers]`, the single data row written under the
`headers` columns. -/
def write_row (row : List (Str × Str)) (headers : List Str) : List Str :=
  headers.map (fun h => (alGet row h).getD [])

/-! ### Spec-modelled definitions

The spec describes a default-rule synthesis step and a regex strategy that
have no counterpart in `extractor.py`; the following definitions follow
the spec's words so the code can be compared against them. -/

/-- Modelled from the spec: "otherwise synthesize a default rule of type
`single_line` whose sole search variant is the label with underscores
replaced by spaces".  Missing from the source: `extract` has no default
path for unconfigured labels. -/
def spec_default_rule (label : Str) : Rule :=
  { type := "single_line".data
    search := [label.map (fun c => if c = '_' then ' ' else c)]
    pattern := none
    keep_n_sentences := none
    row := none }

/-- Modelled from the spec: resolving a label through its synthesized
default rule — candidate sections chosen by the default variant, then the
single_line strategy, then postprocessing.  Missing from the source:
no such resolution is performed for labels without a concrete rule. -/
def spec_resolve_default (label : Str) (text : Str) : Str :=
  let rule := spec_default_rule label
  postprocess label
    (singleLineValue rule.search (candidateSecs rule.search (sectionize text) text))

/-- Modelled from the spec: the `regex` strategy, "try against the full
document text first; only if that yields no match, try against each
candidate section in order; first successful capture wins", restricted to
patterns consisting of a literal prefix followed by a single capture group
containing a literal (written here as the pair `pre`, `cap`), matched
case-insensitively.  Missing from the source: `extract` has no `regex`
branch at all. -/
def spec_regex_resolve (pre cap : Str) (text : Str) (candidate_secs : List Str) : Str :=
  if reSearchLit (pre ++ cap) text then cap
  else if candidate_secs.any (fun s => reSearchLit (pre ++ cap) s) then cap
  else []

/-! ## Lemmas and verified properties -/

/-! ### Association-list lemmas -/

theorem alGet_alSet_self {α : Type} (m : List (Str × α)) (k : Str) (v : α) :
    alGet (alSet m k v) k = some v := by
  induction m with
  | nil => simp [alSet, alGet]
  | cons p rest ih =>
    by_cases h : p.1 = k
    · simp [alSet, alGet, h]
    · simp [alSet, alGet, h, ih]

theorem alGet_alSet_ne {α : Type} (m : List (Str × α)) (key k : Str) (v : α)
    (h : key ≠ k) : alGet (alSet m key v) k = alGet m k := by
  induction m with
  | nil => simp [alSet, alGet, h]
  | cons p rest ih =>
    by_cases hp : p.1 = key
    · simp [alSet, alGet, hp, h]
    · simp only [alSet, hp, if_false]
      by_cases hk : p.1 = k
      · simp [alGet, hk]
      · simp [alGet, hk, ih]

theorem alSet_keys {α : Type} (m : List (Str × α)) (k : Str) (v : α) :
    (alSet m k v).map Prod.fst =
      if k ∈ m.map Prod.fst then m.map Prod.fst else m.map Prod.fst ++ [k] := by
  induction m with
  | nil => simp [alSet]
  | cons p rest ih =>
    obtain ⟨a, b⟩ := p
    by_cases h : a = k
    · have hk : k ∈ ((a, b) :: rest).map Prod.fst := by
        rw [← h, List.map_cons]
        exact List.mem_cons_self _ _
      rw [if_pos hk]
      simp [alSet, h]
    · have hne : ¬ k = a := fun hh => h hh.symm
      simp only [alSet, h, if_false, List.map_cons]
      rw [ih]
      by_cases hk : k ∈ rest.map Prod.fst <;> simp [hk, hne, h]

theorem mem_alSet {α : Type} (m : List (Str × α)) (k : Str) (v : α) (p : Str × α)
    (h : p ∈ alSet m k v) : p ∈ m ∨ p = (k, v) := by
  induction m with
  | nil =>
    simp only [alSet, List.mem_singleton] at h
    exact Or.inr h
  | cons q rest ih =>
    by_cases hq : q.1 = k
    · simp only [alSet, hq, if_true] at h
      rcases List.mem_cons.1 h with h1 | h1
      · right; rw [h1, ← hq]
      · left; exact List.mem_cons_of_mem _ h1
    · simp only [alSet, hq, if_false] at h
      rcases List.mem_cons.1 h with h1 | h1
      · left; exact h1 ▸ List.mem_cons_self _ _
      · rcases ih h1 with h2 | h2
        · left; exact List.mem_cons_of_mem _ h2
        · right; exact h2

theorem alGet_map {α β : Type} (f : α → β) (m : List (Str × α)) (k : Str) :
    alGet (m.map (fun p => (p.1, f p.2))) k = (alGet m k).map f := by
  induction m with
  | nil => simp [alGet]
  | cons p rest ih =>
    by_cases h : p.1 = k
    · simp [alGet, h]
    · simp [alGet, h, ih]

theorem alGet_alAppend_self (m : List (Str × List Str)) (k : Str) (line : Str) :
    alGet (alAppend m k line) k = some ((alGet m k).getD [] ++ [line]) := by
  induction m with
  | nil => simp [alAppend, alGet]
  | cons p rest ih =>
    by_cases h : p.1 = k
    · simp [alAppend, alGet, h]
    · simp [alAppend, alGet, h, ih]

theorem alGet_alAppend_ne (m : List (Str × List Str)) (key k : Str) (line : Str)
    (h : key ≠ k) : alGet (alAppend m key line) k = alGet m k := by
  induction m with
  | nil => simp [alAppend, alGet, h]
  | cons p rest ih =>
    by_cases hp : p.1 = key
    · simp [alAppend, alGet, hp, h]
    · simp only [alAppend, hp, if_false]
      by_cases hk : p.1 = k
      · simp [alGet, hk]
      · simp [alGet, hk, ih]

/-! ### Generic fold lemmas for dict-building loops -/

theorem foldl_alSet_get_ne {α β : Type} (key : β → Str) (g : β → α) (k : Str) :
    ∀ (ps : List β) (m : List (Str × α)), (∀ p ∈ ps, key p ≠ k) →
      alGet (ps.foldl (fun row p => alSet row (key p) (g p)) m) k = alGet m k
  | [], m, _ => rfl
  | p :: ps, m, h => by
    have hp : key p ≠ k := h p (List.mem_cons_self _ _)
    have hrest : ∀ q ∈ ps, key q ≠ k := fun q hq => h q (List.mem_cons_of_mem _ hq)
    rw [List.foldl_cons, foldl_alSet_get_ne key g k ps _ hrest, alGet_alSet_ne _ _ _ _ hp]

theorem foldl_alSet_keys_mem {α β : Type} (key : β → Str) (g : β → α) :
    ∀ (ps : List β) (m : List (Str × α)), (∀ p ∈ ps, key p ∈ m.map Prod.fst) →
      (ps.foldl (fun row p => alSet row (key p) (g p)) m).map Prod.fst = m.map Prod.fst
  | [], _, _ => rfl
  | p :: ps, m, h => by
    have hp : key p ∈ m.map Prod.fst := h p (List.mem_cons_self _ _)
    have hkeys : (alSet m (key p) (g p)).map Prod.fst = m.map Prod.fst := by
      rw [alSet_keys]; simp [hp]
    have hrest : ∀ q ∈ ps, key q ∈ (alSet m (key p) (g p)).map Prod.fst := by
      rw [hkeys]
      exact fun q hq => h q (List.mem_cons_of_mem _ hq)
    rw [List.foldl_cons, foldl_alSet_keys_mem key g ps _ hrest, hkeys]

theorem mem_foldl_alSet {α β : Type} (key : β → Str) (g : β → α) :
    ∀ (ps : List β) (m : List (Str × α)) (p : Str × α),
      p ∈ ps.foldl (fun row q => alSet row (key q) (g q)) m →
      p ∈ m ∨ ∃ q ∈ ps, p = (key q, g q)
  | [], _, _, h => Or.inl h
  | q :: ps, m, p, h => by
    rw [List.foldl_cons] at h
    rcases mem_foldl_alSet key g ps _ p h with h1 | h1
    · rcases mem_alSet _ _ _ _ h1 with h2 | h2
      · exact Or.inl h2
      · exact Or.inr ⟨q, List.mem_cons_self _ _, h2⟩
    · rcases h1 with ⟨r, hr, hpr⟩
      exact Or.inr ⟨r, List.mem_cons_of_mem _ hr, hpr⟩

/-- The initial row `{lab: "" for lab in LABELS}`: lookup. -/
theorem row0_get (labels : List Str) (k : Str) :
    alGet (labels.foldl (fun r lab => alSet r lab ([] : Str)) []) k =
      if k ∈ labels then some [] else none := by
  suffices h : ∀ m : List (Str × Str),
      alGet (labels.foldl (fun r lab => alSet r lab ([] : Str)) m) k =
        if k ∈ labels then some [] else alGet m k by
    simpa [alGet] using h []
  induction labels with
  | nil => intro m; simp
  | cons lab rest ih =>
    intro m
    rw [List.foldl_cons, ih]
    by_cases hk : k ∈ rest
    · simp [hk]
    · by_cases hlab : k = lab
      · subst hlab
        simp [hk, alGet_alSet_self]
      · have : lab ≠ k := fun hh => hlab hh.symm
        simp [hk, hlab, alGet_alSet_ne _ _ _ _ this]

/-- The initial row's keys are the schema labels when these are distinct. -/
theorem row0_keys (labels : List Str) (h : labels.Nodup) :
    (labels.foldl (fun r lab => alSet r lab ([] : Str)) []).map Prod.fst = labels := by
  suffices hgen : ∀ m : List (Str × Str), labels.Nodup →
      (∀ l ∈ labels, l ∉ m.map Prod.fst) →
      (labels.foldl (fun r lab => alSet r lab ([] : Str)) m).map Prod.fst =
        m.map Prod.fst ++ labels by
    simpa using hgen [] h (by simp)
  clear h
  induction labels with
  | nil => intro m _ _; simp
  | cons lab rest ih =>
    intro m hnd hfresh
    have hlab : lab ∉ m.map Prod.fst := hfresh lab (List.mem_cons_self _ _)
    have hkeys : (alSet m lab ([] : Str)).map Prod.fst = m.map Prod.fst ++ [lab] := by
      rw [alSet_keys]; simp [hlab]
    rw [List.foldl_cons, ih _ (List.nodup_cons.1 hnd).2]
    · rw [hkeys]; simp
    · intro l hl
      rw [hkeys]
      simp only [List.mem_append, List.mem_singleton]
      rintro (h1 | h1)
      · exact hfresh l (List.mem_cons_of_mem _ hl) h1
      · exact (List.nodup_cons.1 hnd).1 (h1 ▸ hl)

/-- All values of the initial row are the empty string. -/
theorem row0_values (labels : List Str) (p : Str × Str)
    (h : p ∈ labels.foldl (fun r lab => alSet r lab ([] : Str)) []) : p.2 = [] := by
  rcases mem_foldl_alSet (fun lab => lab) (fun _ => ([] : Str)) labels [] p h with h1 | h1
  · simp at h1
  · rcases h1 with ⟨q, _, hq⟩
    rw [hq]

theorem pySplitOnce_eq (sep : Char) :
    ∀ v : Str, sep ∈ v →
      pySplitOnce sep v =
        (v.takeWhile (fun c => c ≠ sep), (v.dropWhile (fun c => c ≠ sep)).drop 1)
  | [], h => absurd h (List.not_mem_nil _)
  | c :: cs, h => by
    by_cases hc : c = sep
    · subst hc
      simp [pySplitOnce, List.takeWhile, List.dropWhile]
    · have hmem : sep ∈ cs := by
        rcases List.mem_cons.1 h with h1 | h1
        · exact absurd h1.symm hc
        · exact h1
      have ih := pySplitOnce_eq sep cs hmem
      simp [pySplitOnce, List.takeWhile, List.dropWhile, hc, ih]

/-- The claim of `postprocess` on comma-containing values for the
surname/given-name labels: split once at the first comma, the trimmed left
part for `last` and the trimmed right part for `first`; in particular
`"Smith, John"` yields `"Smith"` and `"John"`. -/
theorem postprocess_comma_split (v : Str) (h : ',' ∈ v) :
    postprocess "last".data v = pyStrip (v.takeWhile (fun c => c ≠ ',')) ∧
    postprocess "first".data v = pyStrip ((v.dropWhile (fun c => c ≠ ',')).drop 1) ∧
    postprocess "last".data "Smith, John".data = "Smith".data ∧
    postprocess "first".data "Smith, John".data = "John".data := by
  have hcont : v.contains ',' = true := by
    simpa [List.contains] using h
  refine ⟨?_, ?_, by decide, by decide⟩ <;>
    simp [postprocess, hcont, pySplitOnce_eq ',' v h, h]

/-- Closed instantiation of `postprocess_comma_split`. -/
theorem postprocess_comma_split_witness :
    postprocess "last".data "Smith, John".data =
      pyStrip ("Smith, John".data.takeWhile (fun c => c ≠ ',')) :=
  (postprocess_comma_split "Smith, John".data (by decide)).1

/-- Rule loading performs no validation: a `regex` rule with no pattern is
accepted unchanged by `load_rules`, and during extraction its label is
silently resolved to the empty string by the catch-all strategy branch. -/
theorem malformed_rule_accepted_silently :
    load_rules (some [("foo".data, ⟨"regex".data, ["foo".data], none, none, none⟩)]) =
      Except.ok [("foo".data, ⟨"regex".data, ["foo".data], none, none, none⟩)] ∧
    alGet
        (extract ["foo".data] "foo: bar".data
          [("foo".data, ⟨"regex".data, ["foo".data], none, none, none⟩)])
        "foo".data =
      some [] := by
  exact ⟨rfl, by decide⟩

/-- When `label_map.yml` is absent, `load_rules` propagates the
`FileNotFoundError` of `Path.read_text`; there is no fallback. -/
theorem missing_rule_file_raises :
    load_rules none = Except.error "FileNotFoundError: label_map.yml".data := rfl

/-- Refutation of the claim that an absent rule file yields an empty rule
set instead of an error. -/
theorem missing_rule_file_cex :
    load_rules none ≠ Except.ok ([] : List (Str × Rule)) := by
  simp [load_rules]

/-! ### Sectionizer run lemmas -/

theorem alGet_alSet_isSome {α : Type} (m : List (Str × α)) (key k : Str) (v : α) :
    (alGet (alSet m key v) k).isSome ↔ (alGet m k).isSome ∨ key = k := by
  by_cases h : key = k
  · subst h; simp [alGet_alSet_self]
  · simp [alGet_alSet_ne _ _ _ _ h, h]

theorem alGet_alAppend_isSome (m : List (Str × List Str)) (key k : Str) (line : Str) :
    (alGet (alAppend m key line) k).isSome ↔ (alGet m k).isSome ∨ key = k := by
  by_cases h : key = k
  · subst h; simp [alGet_alAppend_self]
  · simp [alGet_alAppend_ne _ _ _ _ h, h]

theorem alGet_mem {α : Type} (m : List (Str × α)) (k : Str) (v : α)
    (h : alGet m k = some v) : (k, v) ∈ m := by
  induction m with
  | nil => simp [alGet] at h
  | cons p rest ih =>
    obtain ⟨a, b⟩ := p
    by_cases hp : a = k
    · subst hp
      have hb : some b = some v := by simpa [alGet] using h
      have hbv : b = v := Option.some.inj hb
      subst hbv
      exact List.mem_cons_self _ _
    · simp only [alGet, hp, if_false] at h
      exact List.mem_cons_of_mem _ (ih h)

/-- Lookup in the sectionizer's final mapping, in terms of the
accumulated line lists. -/
theorem alGet_sectionize (text : Str) (n : Str) :
    alGet (sectionize text) n =
      (alGet (sectionizeAux (splitlines text) [] "_preamble".data) n).map
        (fun v => pyStrip (joinNL v)) :=
  alGet_map (fun v => pyStrip (joinNL v)) _ n

theorem sectionizeAux_get_ne (n : Str) :
    ∀ (ls : List Str) (secs : List (Str × List Str)) (cur : Str),
      (∀ l ∈ ls, headerName l ≠ some n) → cur ≠ n →
      alGet (sectionizeAux ls secs cur) n = alGet secs n := by
  intro ls
  induction ls with
  | nil => intro secs cur _ _; rfl
  | cons line rest ih =>
    intro secs cur hhead hcur
    cases hl : headerName line with
    | some m =>
      have hm : m ≠ n := fun hh => hhead line (List.mem_cons_self _ _) (by rw [hl, hh])
      rw [show sectionizeAux (line :: rest) secs cur = sectionizeAux rest (alReset secs m) m
        from by simp [sectionizeAux, hl]]
      rw [ih _ _ (fun l hlm => hhead l (List.mem_cons_of_mem _ hlm)) hm]
      exact alGet_alSet_ne _ _ _ _ hm
    | none =>
      rw [show sectionizeAux (line :: rest) secs cur =
          sectionizeAux rest (alAppend secs cur line) cur
        from by simp [sectionizeAux, hl]]
      rw [ih _ _ (fun l hlm => hhead l (List.mem_cons_of_mem _ hlm)) hcur]
      exact alGet_alAppend_ne _ _ _ _ hcur

theorem sectionizeAux_get_cur (n : Str) :
    ∀ (ls : List Str) (secs : List (Str × List Str)) (acc : List Str),
      (∀ l ∈ ls, headerName l ≠ some n) → alGet secs n = some acc →
      alGet (sectionizeAux ls secs n) n =
        some (acc ++ ls.takeWhile (fun l => (headerName l).isNone)) := by
  intro ls
  induction ls with
  | nil => intro secs acc _ hacc; simpa using hacc
  | cons line rest ih =>
    intro secs acc hhead hacc
    cases hl : headerName line with
    | some m =>
      have hm : m ≠ n := fun hh => hhead line (List.mem_cons_self _ _) (by rw [hl, hh])
      rw [show sectionizeAux (line :: rest) secs n = sectionizeAux rest (alReset secs m) m
        from by simp [sectionizeAux, hl]]
      rw [sectionizeAux_get_ne n rest _ m (fun l hm2 => hhead l (List.mem_cons_of_mem _ hm2))
        hm]
      rw [alReset, alGet_alSet_ne _ _ _ _ hm, hacc]
      rw [show (line :: rest).takeWhile (fun l => (headerName l).isNone) = []
        from by simp [List.takeWhile_cons, hl]]
      simp
    | none =>
      rw [show sectionizeAux (line :: rest) secs n = sectionizeAux rest (alAppend secs n line) n
        from by simp [sectionizeAux, hl]]
      have hacc' : alGet (alAppend secs n line) n = some (acc ++ [line]) := by
        rw [alGet_alAppend_self, hacc]
        rfl
      rw [ih _ _ (fun l hm2 => hhead l (List.mem_cons_of_mem _ hm2)) hacc']
      rw [show (line :: rest).takeWhile (fun l => (headerName l).isNone) =
          line :: rest.takeWhile (fun l => (headerName l).isNone)
        from by simp [List.takeWhile_cons, hl]]
      simp

theorem sectionizeAux_last_header (hline n : Str) (ls2 : List Str)
    (hh : headerName hline = some n)
    (hlast : ∀ l ∈ ls2, headerName l ≠ some n) :
    ∀ (ls1 : List Str) (secs : List (Str × List Str)) (cur : Str),
      alGet (sectionizeAux (ls1 ++ hline :: ls2) secs cur) n =
        some (ls2.takeWhile (fun l => (headerName l).isNone)) := by
  intro ls1
  induction ls1 with
  | nil =>
    intro secs cur
    rw [List.nil_append]
    rw [show sectionizeAux (hline :: ls2) secs cur = sectionizeAux ls2 (alReset secs n) n
      from by simp [sectionizeAux, hh]]
    rw [alReset, sectionizeAux_get_cur n ls2 _ [] hlast (alGet_alSet_self _ _ _)]
    simp
  | cons line ls1' ih =>
    intro secs cur
    rw [List.cons_append]
    cases hl : headerName line with
    | some m =>
      rw [show sectionizeAux (line :: (ls1' ++ hline :: ls2)) secs cur =
          sectionizeAux (ls1' ++ hline :: ls2) (alReset secs m) m
        from by simp [sectionizeAux, hl]]
      exact ih _ _
    | none =>
      rw [show sectionizeAux (line :: (ls1' ++ hline :: ls2)) secs cur =
          sectionizeAux (ls1' ++ hline :: ls2) (alAppend secs cur line) cur
        from by simp [sectionizeAux, hl]]
      exact ih _ _

/-- The C7 claim: when a header naming `n` is followed only by lines that
are not headers naming `n` again, the section body for `n` is exactly the
run of non-header lines after that occurrence — the bodies of earlier
occurrences are discarded, not merged. -/
theorem repeated_header_last_wins (text : Str) (ls1 ls2 : List Str) (hline n : Str)
    (hsplit : splitlines text = ls1 ++ hline :: ls2)
    (hh : headerName hline = some n)
    (hlast : ∀ l ∈ ls2, headerName l ≠ some n) :
    alGet (sectionize text) n =
      some (pyStrip (joinNL (ls2.takeWhile (fun l => (headerName l).isNone)))) := by
  rw [alGet_sectionize, hsplit, sectionizeAux_last_header hline n ls2 hh hlast ls1 [] _]
  rfl

/-- Closed instantiation of `repeated_header_last_wins` on a document in
which the header `A:` occurs twice: the mapping holds only the second
body. -/
theorem repeated_header_last_wins_witness :
    alGet (sectionize "A:\nx\nA:\ny".data) "a".data =
      some (pyStrip (joinNL (["y".data].takeWhile (fun l => (headerName l).isNone)))) :=
  repeated_header_last_wins "A:\nx\nA:\ny".data ["A:".data, "x".data] ["y".data]
    "A:".data "a".data (by decide) (by decide) (by decide)

theorem sectionizeAux_preamble_isSome (k : Str) :
    ∀ (ls : List Str) (secs : List (Str × List Str)) (cur : Str),
      (alGet (sectionizeAux ls secs cur) k).isSome ↔
        (alGet secs k).isSome ∨
        (cur = k ∧ ls.takeWhile (fun l => (headerName l).isNone) ≠ []) ∨
        (∃ l ∈ ls, headerName l = some k) := by
  intro ls
  induction ls with
  | nil => intro secs cur; simp [sectionizeAux]
  | cons line rest ih =>
    intro secs cur
    cases hl : headerName line with
    | some m =>
      rw [show sectionizeAux (line :: rest) secs cur = sectionizeAux rest (alReset secs m) m
        from by simp [sectionizeAux, hl]]
      rw [ih]
      rw [alReset, alGet_alSet_isSome]
      simp only [List.takeWhile_cons, hl, Option.isNone_some, Bool.false_eq_true,
        if_false, List.mem_cons, Option.some.injEq]
      constructor
      · rintro ((h1 | h1) | h1 | h1)
        · exact Or.inl h1
        · exact Or.inr (Or.inr ⟨line, Or.inl rfl, by rw [hl, h1]⟩)
        · exact Or.inr (Or.inr ⟨line, Or.inl rfl, by rw [hl, h1.1]⟩)
        · rcases h1 with ⟨l, hmem, hsome⟩
          exact Or.inr (Or.inr ⟨l, Or.inr hmem, hsome⟩)
      · rintro (h1 | h1 | h1)
        · exact Or.inl (Or.inl h1)
        · exact absurd h1.2 (by simp)
        · rcases h1 with ⟨l, hmem | hmem, hsome⟩
          · subst hmem
            rw [hl] at hsome
            exact Or.inl (Or.inr (Option.some.inj hsome))
          · exact Or.inr (Or.inr ⟨l, hmem, hsome⟩)
    | none =>
      rw [show sectionizeAux (line :: rest) secs cur =
          sectionizeAux rest (alAppend secs cur line) cur
        from by simp [sectionizeAux, hl]]
      rw [ih]
      rw [alGet_alAppend_isSome]
      simp only [List.takeWhile_cons, hl, Option.isNone_none, if_true, List.mem_cons]
      constructor
      · rintro ((h1 | h1) | h1 | h1)
        · exact Or.inl h1
        · exact Or.inr (Or.inl ⟨h1, by simp⟩)
        · exact Or.inr (Or.inl ⟨h1.1, by simp⟩)
        · rcases h1 with ⟨l, hmem, hsome⟩
          exact Or.inr (Or.inr ⟨l, Or.inr hmem, hsome⟩)
      · rintro (h1 | h1 | h1)
        · exact Or.inl (Or.inl h1)
        · exact Or.inl (Or.inr h1.1)
        · rcases h1 with ⟨l, hmem | hmem, hsome⟩
          · subst hmem
            rw [hl] at hsome
            exact absurd hsome (by simp)
          · exact Or.inr (Or.inr ⟨l, hmem, hsome⟩)

/-- The amended C10: the mapping contains the reserved preamble name iff
some line precedes the first recognized header, or some header's
lower-cased name is itself the reserved name; the empty document yields
the empty mapping. -/
theorem preamble_key_iff :
    (∀ text : Str,
        (alGet (sectionize text) "_preamble".data).isSome ↔
          (splitlines text).takeWhile (fun l => (headerName l).isNone) ≠ [] ∨
          ∃ l ∈ splitlines text, headerName l = some "_preamble".data) ∧
    sectionize "".data = [] := by
  constructor
  · intro text
    rw [alGet_sectionize]
    rw [Option.isSome_map']
    rw [sectionizeAux_preamble_isSome]
    simp [alGet]
  · rfl

/-! ### splitlines, join and strip lemmas (for the round-trip claim) -/

theorem splitlinesAux_nil (cur : Str) :
    splitlinesAux [] cur = if cur = [] then [] else [cur] := rfl

theorem splitlinesAux_single (c : Char) (cur : Str) :
    splitlinesAux [c] cur = if isLineBreak c then [cur] else [cur ++ [c]] := rfl

theorem splitlinesAux_two_break (c d : Char) (rest cur : Str)
    (h1 : ¬ (c = '\r' ∧ d = '\n')) (h2 : isLineBreak c = true) :
    splitlinesAux (c :: d :: rest) cur = cur :: splitlinesAux (d :: rest) [] := by
  rw [splitlinesAux, if_neg (by simpa using h1), if_pos h2]

theorem splitlinesAux_two_nonbreak (c d : Char) (rest cur : Str)
    (h : isLineBreak c = false) :
    splitlinesAux (c :: d :: rest) cur = splitlinesAux (d :: rest) (cur ++ [c]) := by
  have hcr : ¬ (c = '\r' ∧ d = '\n') := by
    rintro ⟨hc, -⟩
    rw [hc] at h
    exact absurd h (by decide)
  rw [splitlinesAux, if_neg (by simpa using hcr), if_neg (by simp [h])]

/-- One step at a break character that does not open a `\r\n` pair. -/
theorem splitlinesAux_cons_break (c : Char) (s cur : Str)
    (hbrk : isLineBreak c = true) (hcr : ¬ (c = '\r' ∧ s.head? = some '\n')) :
    splitlinesAux (c :: s) cur = cur :: splitlinesAux s [] := by
  cases s with
  | nil =>
    rw [splitlinesAux_single, if_pos hbrk, splitlinesAux_nil]
    simp
  | cons d rest =>
    refine splitlinesAux_two_break c d rest cur ?_ hbrk
    rintro ⟨hc, hd⟩
    exact hcr ⟨hc, by simp [hd]⟩

/-- One step at an ordinary character. -/
theorem splitlinesAux_cons_nonbreak (c : Char) (s cur : Str)
    (h : isLineBreak c = false) :
    splitlinesAux (c :: s) cur = splitlinesAux s (cur ++ [c]) := by
  cases s with
  | nil =>
    rw [splitlinesAux_single, if_neg (by simp [h]), splitlinesAux_nil,
      if_neg (by simp)]
  | cons d rest => exact splitlinesAux_two_nonbreak c d rest cur h

/-- Every line produced by `splitlines` is free of line-break characters. -/
theorem splitlinesAux_no_break : ∀ s cur : Str,
    (∀ c ∈ cur, isLineBreak c = false) →
    ∀ l ∈ splitlinesAux s cur, ∀ c ∈ l, isLineBreak c = false := by
  intro s cur
  induction s, cur using splitlinesAux.induct with
  | case1 =>
    intro _ l hl
    simp [splitlinesAux_nil] at hl
  | case2 cur hcur =>
    intro h l hl
    rw [splitlinesAux_nil, if_neg hcur] at hl
    intro ch hc
    exact h ch ((List.mem_singleton.1 hl) ▸ hc)
  | case3 c cur hbrk =>
    intro h l hl
    rw [splitlinesAux_single, if_pos hbrk] at hl
    intro ch hc
    exact h ch ((List.mem_singleton.1 hl) ▸ hc)
  | case4 c cur hbrk =>
    intro h l hl
    have hb : isLineBreak c = false := by
      cases hcb : isLineBreak c
      · rfl
      · exact absurd hcb hbrk
    rw [splitlinesAux_single, if_neg (by simp [hb])] at hl
    intro ch hc
    rcases List.mem_append.1 ((List.mem_singleton.1 hl) ▸ hc) with h1 | h1
    · exact h ch h1
    · rw [List.mem_singleton.1 h1]
      exact hb
  | case5 c d rest cur hcd ih =>
    intro h l hl
    obtain ⟨hc, hd⟩ := by simpa using hcd
    subst hc; subst hd
    rw [splitlinesAux] at hl
    rw [if_pos (by simp)] at hl
    rcases List.mem_cons.1 hl with h1 | h1
    · intro ch hc2; exact h ch (h1 ▸ hc2)
    · exact ih (by simp) l h1
  | case6 c d rest cur hcd hbrk ih =>
    intro h l hl
    rw [splitlinesAux_two_break c d rest cur (by simpa using hcd) hbrk] at hl
    rcases List.mem_cons.1 hl with h1 | h1
    · intro ch hc2; exact h ch (h1 ▸ hc2)
    · exact ih (by simp) l h1
  | case7 c d rest cur hcd hbrk ih =>
    intro h l hl
    have hb : isLineBreak c = false := by
      cases hcb : isLineBreak c
      · rfl
      · exact absurd hcb hbrk
    rw [splitlinesAux_two_nonbreak c d rest cur hb] at hl
    refine ih ?_ l hl
    intro ch hc2
    rcases List.mem_append.1 hc2 with h1 | h1
    · exact h ch h1
    · rw [List.mem_singleton.1 h1]
      exact hb

theorem splitlines_no_break (t : Str) :
    ∀ l ∈ splitlines t, ∀ c ∈ l, isLineBreak c = false :=
  splitlinesAux_no_break t [] (by simp)

/-- Splitting a text that starts with a break-free line and an explicit
newline peels off exactly that line. -/
theorem splitlinesAux_header_append :
    ∀ (hl rest cur : Str), (∀ c ∈ hl, isLineBreak c = false) →
      splitlinesAux (hl ++ '\n' :: rest) cur = (cur ++ hl) :: splitlinesAux rest []
  | [], rest, cur, _ => by
    rw [List.nil_append,
      splitlinesAux_cons_break '\n' rest cur (by decide)
        (by rintro ⟨hc, -⟩; exact absurd hc (by decide))]
    simp
  | c :: hl2, rest, cur, hnb => by
    have hc : isLineBreak c = false := hnb c (List.mem_cons_self _ _)
    have htail : hl2 ++ '\n' :: rest ≠ [] := by simp
    rw [List.cons_append, splitlinesAux_cons_nonbreak c _ cur hc,
      splitlinesAux_header_append hl2 rest (cur ++ [c])
        (fun ch hm => hnb ch (List.mem_cons_of_mem _ hm))]
    simp

theorem splitlinesAux_ne_nil : ∀ s cur : Str, s ≠ [] ∨ cur ≠ [] →
    splitlinesAux s cur ≠ [] := by
  intro s cur
  induction s, cur using splitlinesAux.induct with
  | case1 =>
    intro h
    rcases h with h | h <;> exact absurd rfl h
  | case2 cur hcur =>
    intro _
    rw [splitlinesAux_nil, if_neg hcur]
    simp
  | case3 c cur hbrk =>
    intro _
    rw [splitlinesAux_single, if_pos hbrk]
    simp
  | case4 c cur hbrk =>
    intro _
    rw [splitlinesAux_single, if_neg hbrk]
    simp
  | case5 c d rest cur hcd ih =>
    intro _
    rw [splitlinesAux, if_pos hcd]
    simp
  | case6 c d rest cur hcd hbrk ih =>
    intro _
    rw [splitlinesAux_two_break c d rest cur (by simpa using hcd) hbrk]
    simp
  | case7 c d rest cur hcd hbrk ih =>
    intro _
    have hb : isLineBreak c = false := by
      cases hcb : isLineBreak c
      · rfl
      · exact absurd hcb hbrk
    rw [splitlinesAux_two_nonbreak c d rest cur hb]
    exact ih (Or.inl (by simp))

/-- Joining the split lines with newlines restores a text whose only break
character is `\n` and which does not end in `\n`. -/
theorem joinNL_splitlinesAux : ∀ s cur : Str,
    (∀ c ∈ s, isLineBreak c = true → c = '\n') →
    s.getLast? ≠ some '\n' →
    joinNL (splitlinesAux s cur) = cur ++ s := by
  intro s cur
  induction s, cur using splitlinesAux.induct with
  | case1 =>
    intro _ _
    rw [splitlinesAux_nil, if_pos rfl]
    rfl
  | case2 cur hcur =>
    intro _ _
    rw [splitlinesAux_nil, if_neg hcur]
    simp [joinNL]
  | case3 c cur hbrk =>
    intro honly hlast
    have hcn : c = '\n' := honly c (List.mem_singleton_self _) hbrk
    subst hcn
    exact absurd (show (['\n'] : Str).getLast? = some '\n' by rfl) hlast
  | case4 c cur hbrk =>
    intro _ _
    have hb : isLineBreak c = false := by
      cases hcb : isLineBreak c
      · rfl
      · exact absurd hcb hbrk
    rw [splitlinesAux_single, if_neg (by simp [hb])]
    simp [joinNL]
  | case5 c d rest cur hcd ih =>
    intro honly _
    obtain ⟨hc, hd⟩ := by simpa using hcd
    subst hc
    exact absurd (honly '\r' (List.mem_cons_self _ _) (by decide)) (by decide)
  | case6 c d rest cur hcd hbrk ih =>
    intro honly hlast
    have hcn : c = '\n' := honly c (List.mem_cons_self _ _) hbrk
    subst hcn
    rw [splitlinesAux_two_break '\n' d rest cur (by simpa using hcd) hbrk]
    have hne2 : splitlinesAux (d :: rest) [] ≠ [] :=
      splitlinesAux_ne_nil (d :: rest) [] (Or.inl (by simp))
    have hrec : joinNL (splitlinesAux (d :: rest) []) = d :: rest := by
      have := ih (fun ch hm hb => honly ch (List.mem_cons_of_mem _ hm) hb)
        (by simpa [List.getLast?_cons_cons] using hlast)
      simpa using this
    cases hX : splitlinesAux (d :: rest) [] with
    | nil => exact absurd hX hne2
    | cons x xs =>
      rw [hX] at hrec
      rw [joinNL, hrec]
  | case7 c d rest cur hcd hbrk ih =>
    intro honly hlast
    have hb : isLineBreak c = false := by
      cases hcb : isLineBreak c
      · rfl
      · exact absurd hcb hbrk
    rw [splitlinesAux_two_nonbreak c d rest cur hb]
    rw [ih (fun ch hm hb2 => honly ch (List.mem_cons_of_mem _ hm) hb2)
      (by simpa [List.getLast?_cons_cons] using hlast)]
    simp
theorem dropWhile_head_false (p : Char → Bool) :
    ∀ (l : Str) (c : Char) (t : Str), l.dropWhile p = c :: t → p c = false := by
  intro l
  induction l with
  | nil =>
    intro c t h
    simp [List.dropWhile] at h
  | cons a l2 ih =>
    intro c t h
    rw [List.dropWhile_cons] at h
    by_cases hpa : p a = true
    · rw [if_pos hpa] at h
      exact ih c t h
    · rw [if_neg hpa] at h
      injection h with h1 h2
      rw [← h1]
      simpa using hpa

theorem prefix_head_eq : ∀ l₁ l₂ : Str, l₁ <+: l₂ → l₁ ≠ [] → l₁.head? = l₂.head? := by
  rintro l₁ l₂ ⟨u, rfl⟩ hne
  cases l₁ with
  | nil => exact absurd rfl hne
  | cons c t => rfl

theorem pyStrip_head (s : Str) (c : Char) (t : Str) (h : pyStrip s = c :: t) :
    pyIsSpace c = false := by
  have hpre : pyStrip s <+: s.dropWhile pyIsSpace := by
    obtain ⟨u, hu⟩ := List.dropWhile_suffix (l := (s.dropWhile pyIsSpace).reverse)
      (p := pyIsSpace)
    refine ⟨u.reverse, ?_⟩
    have hrev : ((u ++ ((s.dropWhile pyIsSpace).reverse.dropWhile pyIsSpace)).reverse) =
        s.dropWhile pyIsSpace := by
      rw [hu, List.reverse_reverse]
    rw [← hrev, List.reverse_append]
    rfl
  have hne : pyStrip s ≠ [] := by rw [h]; simp
  have hhead := prefix_head_eq _ _ hpre hne
  rw [h] at hhead
  cases hwc : s.dropWhile pyIsSpace with
  | nil => rw [hwc] at hhead; simp at hhead
  | cons a t2 =>
    rw [hwc] at hhead
    simp only [List.head?_cons, Option.some.injEq] at hhead
    rw [hhead]
    exact dropWhile_head_false pyIsSpace s a t2 hwc

theorem pyStrip_getLast (s : Str) (c : Char) (h : (pyStrip s).getLast? = some c) :
    pyIsSpace c = false := by
  rw [pyStrip, List.getLast?_reverse] at h
  cases hwc : (s.dropWhile pyIsSpace).reverse.dropWhile pyIsSpace with
  | nil => rw [hwc] at h; simp at h
  | cons a t2 =>
    rw [hwc] at h
    simp only [List.head?_cons, Option.some.injEq] at h
    rw [← h]
    exact dropWhile_head_false pyIsSpace _ a t2 hwc

theorem pyStrip_eq_self (s : Str)
    (hhead : ∀ c t, s = c :: t → pyIsSpace c = false)
    (hlast : ∀ c, s.getLast? = some c → pyIsSpace c = false) : pyStrip s = s := by
  have h1 : s.dropWhile pyIsSpace = s := by
    cases hs : s with
    | nil => simp
    | cons c t => rw [List.dropWhile_cons, if_neg (by simp [hhead c t hs])]
  rw [pyStrip, h1]
  have h2 : s.reverse.dropWhile pyIsSpace = s.reverse := by
    cases hr : s.reverse with
    | nil => simp
    | cons c t =>
      have hh := List.head?_reverse s
      rw [hr] at hh
      have hc : s.getLast? = some c := hh.symm
      rw [List.dropWhile_cons, if_neg (by simp [hlast c hc])]
  rw [h2, List.reverse_reverse]

theorem pyStrip_idem (s : Str) : pyStrip (pyStrip s) = pyStrip s :=
  pyStrip_eq_self _ (fun c t h => pyStrip_head s c t h) (fun c h => pyStrip_getLast s c h)

theorem mem_pyStrip (s : Str) (c : Char) (h : c ∈ pyStrip s) : c ∈ s := by
  rw [pyStrip, List.mem_reverse] at h
  have h2 := (List.dropWhile_sublist (l := (s.dropWhile pyIsSpace).reverse)
    (p := pyIsSpace)).subset h
  rw [List.mem_reverse] at h2
  exact (List.dropWhile_sublist (l := s) (p := pyIsSpace)).subset h2

theorem mem_joinNL : ∀ (v : List Str) (c : Char), c ∈ joinNL v →
    c = '\n' ∨ ∃ l ∈ v, c ∈ l
  | [], _, h => absurd h (List.not_mem_nil _)
  | [l], c, h => Or.inr ⟨l, List.mem_singleton_self _, by simpa [joinNL] using h⟩
  | l :: l2 :: rest, c, h => by
    rw [joinNL] at h
    rcases List.mem_append.1 h with h1 | h1
    · exact Or.inr ⟨l, List.mem_cons_self _ _, h1⟩
    · rcases List.mem_cons.1 h1 with h2 | h2
      · exact Or.inl h2
      · rcases mem_joinNL (l2 :: rest) c h2 with h3 | ⟨l3, hl3, hc3⟩
        · exact Or.inl h3
        · exact Or.inr ⟨l3, List.mem_cons_of_mem _ hl3, hc3⟩

theorem alAppend_forall (P : Str → Prop) :
    ∀ (m : List (Str × List Str)) (k line : Str),
      (∀ p ∈ m, ∀ l ∈ p.2, P l) → P line →
      ∀ p ∈ alAppend m k line, ∀ l ∈ p.2, P l := by
  intro m
  induction m with
  | nil =>
    intro k line _ hline p hp l hl
    simp only [alAppend, List.mem_singleton] at hp
    subst hp
    simp only [List.mem_singleton] at hl
    exact hl ▸ hline
  | cons q rest ih =>
    intro k line hm hline p hp l hl
    obtain ⟨a, b⟩ := q
    by_cases hq : a = k
    · rw [show alAppend ((a, b) :: rest) k line = (a, b ++ [line]) :: rest
        from by simp [alAppend, hq]] at hp
      rcases List.mem_cons.1 hp with h1 | h1
      · subst h1
        rcases List.mem_append.1 hl with h2 | h2
        · exact hm (a, b) (List.mem_cons_self _ _) l h2
        · exact (List.mem_singleton.1 h2) ▸ hline
      · exact hm p (List.mem_cons_of_mem _ h1) l hl
    · rw [show alAppend ((a, b) :: rest) k line = (a, b) :: alAppend rest k line
        from by simp [alAppend, hq]] at hp
      rcases List.mem_cons.1 hp with h1 | h1
      · exact hm p (h1 ▸ List.mem_cons_self _ _) l hl
      · exact ih k line (fun p2 hp2 => hm p2 (List.mem_cons_of_mem _ hp2)) hline p h1 l hl

theorem sectionizeAux_values (P : Str → Prop) :
    ∀ (ls : List Str) (secs : List (Str × List Str)) (cur : Str),
      (∀ l ∈ ls, P l) → (∀ p ∈ secs, ∀ l ∈ p.2, P l) →
      ∀ p ∈ sectionizeAux ls secs cur, ∀ l ∈ p.2, P l := by
  intro ls
  induction ls with
  | nil =>
    intro secs cur _ hsecs
    exact hsecs
  | cons line rest ih =>
    intro secs cur hls hsecs
    cases hl : headerName line with
    | some m =>
      rw [show sectionizeAux (line :: rest) secs cur = sectionizeAux rest (alReset secs m) m
        from by simp [sectionizeAux, hl]]
      refine ih _ _ (fun l hm2 => hls l (List.mem_cons_of_mem _ hm2)) ?_
      intro p hp l hl2
      rcases mem_alSet _ _ _ _ hp with h1 | h1
      · exact hsecs p h1 l hl2
      · rw [h1] at hl2
        simp at hl2
    | none =>
      rw [show sectionizeAux (line :: rest) secs cur =
          sectionizeAux rest (alAppend secs cur line) cur
        from by simp [sectionizeAux, hl]]
      refine ih _ _ (fun l hm2 => hls l (List.mem_cons_of_mem _ hm2)) ?_
      exact alAppend_forall P secs cur line hsecs (hls line (List.mem_cons_self _ _))

/-- Every body stored by `sectionize` is the stripped newline-join of a
list of break-free lines of the document. -/
theorem sectionize_values (t : Str) (n b : Str)
    (h : alGet (sectionize t) n = some b) :
    ∃ v : List Str, b = pyStrip (joinNL v) ∧
      ∀ l ∈ v, ∀ c ∈ l, isLineBreak c = false := by
  rw [alGet_sectionize] at h
  rcases Option.map_eq_some'.1 h with ⟨v, hv, hb⟩
  refine ⟨v, hb.symm, ?_⟩
  exact sectionizeAux_values (fun l => ∀ c ∈ l, isLineBreak c = false)
    (splitlines t) [] "_preamble".data (splitlines_no_break t) (by simp) (n, v)
    (alGet_mem _ _ _ hv)

theorem takeWhile_of_all {α : Type} (p : α → Bool) :
    ∀ ls : List α, (∀ l ∈ ls, p l = true) → ls.takeWhile p = ls
  | [], _ => rfl
  | l :: rest, h => by
    rw [List.takeWhile_cons, if_pos (h l (List.mem_cons_self _ _)),
      takeWhile_of_all p rest (fun x hx => h x (List.mem_cons_of_mem _ hx))]

/-- The amended C8 (round trip on one section): a body produced by
`sectionize` is reproduced when re-sectionizing it under a line that is
recognized as a header for its name (for example the original header line,
whose casing passes the test — unlike the lower-cased stored name), as
long as no body line is itself header-shaped. -/
theorem sectionize_roundtrip_header (t : Str) (n b hline : Str)
    (hmem : alGet (sectionize t) n = some b)
    (hh : headerName hline = some n)
    (hnb : ∀ c ∈ hline, isLineBreak c = false)
    (hbody : ∀ l ∈ splitlines b, headerName l = none) :
    alGet (sectionize (hline ++ '\n' :: b)) n = some b := by
  obtain ⟨v, hbv, hvlines⟩ := sectionize_values t n b hmem
  have honly : ∀ c ∈ b, isLineBreak c = true → c = '\n' := by
    intro c hc hbrk
    have h1 := mem_pyStrip _ _ (hbv ▸ hc)
    rcases mem_joinNL v c h1 with h2 | ⟨l, hl, hcl⟩
    · exact h2
    · exact absurd hbrk (by rw [hvlines l hl c hcl]; simp)
  have hstripped : pyStrip b = b := by
    rw [hbv]
    exact pyStrip_idem _
  have hlastb : b.getLast? ≠ some '\n' := by
    intro hlast
    have hsp := pyStrip_getLast (joinNL v) '\n' (by rw [← hbv]; exact hlast)
    exact absurd hsp (by decide)
  have hsplit : splitlines (hline ++ '\n' :: b) = hline :: splitlines b := by
    rw [splitlines, splitlinesAux_header_append hline b [] hnb, List.nil_append]
    rfl
  rw [alGet_sectionize, hsplit]
  rw [show sectionizeAux (hline :: splitlines b) [] "_preamble".data =
      sectionizeAux (splitlines b) (alReset [] n) n
    from by simp [sectionizeAux, hh]]
  rw [alReset, sectionizeAux_get_cur n (splitlines b) _ []
    (fun l hl => by rw [hbody l hl]; simp) (alGet_alSet_self _ _ _)]
  rw [takeWhile_of_all _ _ (fun l hl => by rw [hbody l hl]; rfl), List.nil_append,
    Option.map_some']
  rw [show joinNL (splitlines b) = b
    from (joinNL_splitlinesAux b [] honly hlastb).trans (List.nil_append b)]
  rw [hstripped]

/-- Closed instantiation of `sectionize_roundtrip_header` with the header
re-inserted in its original casing. -/
theorem sectionize_roundtrip_header_witness :
    alGet (sectionize ("CHIEF COMPLAINT:".data ++ '\n' :: "Patient reports pain.".data))
        "chief complaint".data =
      some "Patient reports pain.".data :=
  sectionize_roundtrip_header "CHIEF COMPLAINT:\nPatient reports pain.".data
    "chief complaint".data "Patient reports pain.".data "CHIEF COMPLAINT:".data
    (by decide) (by decide) (by decide) (by decide)

/-! ### Decimal strings and wildcard substitution -/

theorem decodeDec_append (l : Str) (c : Char) :
    decodeDec (l ++ [c]) = decodeDec l * 10 + (c.toNat - 48) := by
  simp [decodeDec, List.foldl_append]

theorem digitChar_decode (d : Nat) (h : d < 10) : (Nat.digitChar d).toNat - 48 = d := by
  interval_cases d <;> decide

theorem natStrGo_decode : ∀ fuel n : Nat, n ≤ fuel → decodeDec (natStrGo fuel n) = n := by
  intro fuel
  induction fuel with
  | zero =>
    intro n hn
    have : n = 0 := Nat.le_zero.1 hn
    subst this
    rfl
  | succ fuel ih =>
    intro n hn
    by_cases h0 : n = 0
    · subst h0; simp [natStrGo, decodeDec]
    · rw [natStrGo, if_neg h0, decodeDec_append,
        digitChar_decode _ (Nat.mod_lt _ (by omega)),
        ih (n / 10) (by omega)]
      omega

theorem decodeDec_natStr (n : Nat) : decodeDec (natStr n) = n := by
  by_cases h0 : n = 0
  · subst h0; rfl
  · rw [natStr, if_neg h0]
    exact natStrGo_decode n n le_rfl

theorem natStr_inj (i j : Nat) (h : natStr i = natStr j) : i = j := by
  rw [← decodeDec_natStr i, ← decodeDec_natStr j, h]

theorem replaceStar_length (l r : Str) :
    (replaceStar l r).length + l.count '*' = l.length + l.count '*' * r.length := by
  induction l with
  | nil => simp [replaceStar]
  | cons c cs ih =>
    by_cases hc : c = '*'
    · subst hc
      simp only [replaceStar, if_pos rfl, ite_true, List.length_append,
        List.count_cons_self, List.length_cons]
      rw [Nat.add_mul, Nat.one_mul]
      generalize cs.count '*' * r.length = P at ih ⊢
      omega
    · have hne : '*' ≠ c := fun hh => hc hh.symm
      simp only [replaceStar, if_neg hc, List.length_cons, List.count_cons_of_ne hne]
      omega

theorem replaceStar_inj_aux (r₁ r₂ : Str) (hr : r₁.length = r₂.length) :
    ∀ l : Str, '*' ∈ l → replaceStar l r₁ = replaceStar l r₂ → r₁ = r₂
  | [], hstar, _ => absurd hstar (List.not_mem_nil _)
  | c :: cs, hstar, h => by
    by_cases hc : c = '*'
    · subst hc
      simp only [replaceStar, if_pos rfl] at h
      exact (List.append_inj h hr).1
    · simp only [replaceStar, if_neg hc] at h
      have hstar' : '*' ∈ cs := by
        rcases List.mem_cons.1 hstar with h1 | h1
        · exact absurd h1.symm hc
        · exact h1
      have h' : replaceStar cs r₁ = replaceStar cs r₂ := by
        injection h
      exact replaceStar_inj_aux r₁ r₂ hr cs hstar' h'

theorem replaceStar_inj (l : Str) (hstar : '*' ∈ l) (r₁ r₂ : Str)
    (h : replaceStar l r₁ = replaceStar l r₂) : r₁ = r₂ := by
  have hcount : 0 < l.count '*' := List.count_pos_iff.2 hstar
  have hlen : (replaceStar l r₁).length = (replaceStar l r₂).length := by rw [h]
  have h1 := replaceStar_length l r₁
  have h2 := replaceStar_length l r₂
  have hr : r₁.length = r₂.length := by
    have : l.count '*' * r₁.length = l.count '*' * r₂.length := by omega
    exact Nat.eq_of_mul_eq_mul_left hcount this
  exact replaceStar_inj_aux r₁ r₂ hr l hstar h

theorem alSet_fresh {α : Type} (m : List (Str × α)) (k : Str) (v : α)
    (h : k ∉ m.map Prod.fst) : alSet m k v = m ++ [(k, v)] := by
  induction m with
  | nil => rfl
  | cons p rest ih =>
    have hk : ¬ p.1 = k := by
      intro hh
      exact h (by rw [List.map_cons, hh]; exact List.mem_cons_self _ _)
    have hrest : k ∉ rest.map Prod.fst := by
      intro hh
      exact h (by rw [List.map_cons]; exact List.mem_cons_of_mem _ hh)
    simp [alSet, hk, ih hrest]

theorem foldl_alSet_fresh {α β : Type} (key : β → Str) (g : β → α) :
    ∀ (ps : List β) (m : List (Str × α)),
      (∀ p ∈ ps, key p ∉ m.map Prod.fst) →
      List.Pairwise (fun a b => key a ≠ key b) ps →
      ps.foldl (fun row p => alSet row (key p) (g p)) m =
        m ++ ps.map (fun p => (key p, g p))
  | [], m, _, _ => by simp
  | p :: ps, m, hfresh, hpw => by
    have hp : key p ∉ m.map Prod.fst := hfresh p (List.mem_cons_self _ _)
    have hset := alSet_fresh m (key p) (g p) hp
    have hkeys : (alSet m (key p) (g p)).map Prod.fst = m.map Prod.fst ++ [key p] := by
      rw [hset]; simp
    have hfresh' : ∀ q ∈ ps, key q ∉ (alSet m (key p) (g p)).map Prod.fst := by
      intro q hq
      rw [hkeys]
      simp only [List.mem_append, List.mem_singleton]
      rintro (hmem | hmem)
      · exact hfresh q (List.mem_cons_of_mem _ hq) hmem
      · exact (List.pairwise_cons.1 hpw).1 q hq hmem.symm
    rw [List.foldl_cons,
      foldl_alSet_fresh key g ps _ hfresh' (List.pairwise_cons.1 hpw).2, hset]
    simp

/-- Expansion preserves each rule's strategy type: every expanded rule's
`type` comes from some loaded rule. -/
theorem expand_wildcards_types (rules : List (Str × Rule)) (n : Nat) (lr : Str × Rule)
    (h : lr ∈ expand_wildcards rules n) : ∃ lr0 ∈ rules, lr.2.type = lr0.2.type := by
  suffices hgen : ∀ (rs : List (Str × Rule)) (m : List (Str × Rule)),
      lr ∈ rs.foldl
        (fun out q =>
          if q.1.contains '*' then
            (List.range n).foldl
              (fun out2 k =>
                alSet out2 (replaceStar q.1 (natStr (k + 1))) { q.2 with row := some k })
              out
          else alSet out q.1 q.2)
        m →
      lr ∈ m ∨ ∃ lr0 ∈ rs, lr.2.type = lr0.2.type by
    rcases hgen rules [] h with h1 | h1
    · exact absurd h1 (List.not_mem_nil _)
    · exact h1
  intro rs
  induction rs with
  | nil => exact fun m hm => Or.inl hm
  | cons r rs ih =>
    intro m hm
    rw [List.foldl_cons] at hm
    rcases ih _ hm with h1 | h1
    · by_cases hstar : r.1.contains '*'
      · rw [if_pos hstar] at h1
        rcases mem_foldl_alSet (fun k => replaceStar r.1 (natStr (k + 1)))
            (fun k => { r.2 with row := some k }) (List.range n) m lr h1 with h2 | h2
        · exact Or.inl h2
        · rcases h2 with ⟨k, _, hk⟩
          refine Or.inr ⟨r, List.mem_cons_self _ _, ?_⟩
          rw [hk]
      · rw [if_neg hstar] at h1
        rcases mem_alSet _ _ _ _ h1 with h2 | h2
        · exact Or.inl h2
        · refine Or.inr ⟨r, List.mem_cons_self _ _, ?_⟩
          rw [h2]
    · rcases h1 with ⟨lr0, hlr0, htype⟩
      exact Or.inr ⟨lr0, List.mem_cons_of_mem _ hlr0, htype⟩

/-- Postprocessing an empty value yields the empty value. -/
theorem postprocess_nil (label : Str) : postprocess label [] = [] := by
  simp [postprocess, pyStripChars]

/-- A claim of the amended C1: a schema label with no concrete rule after
expansion is never attempted by `extract`; it keeps its initial empty
value (no default rule is synthesized or applied). -/
theorem unconfigured_labels_left_empty (labels : List Str) (text : Str)
    (rules : List (Str × Rule)) (label : Str)
    (h1 : label ∈ labels)
    (h2 : ∀ lr ∈ expand_wildcards rules 30, lr.1 ≠ label) :
    alGet (extract labels text rules) label = some [] := by
  have hstep : alGet (extract labels text rules) label =
      alGet (labels.foldl (fun r lab => alSet r lab ([] : Str)) []) label :=
    foldl_alSet_get_ne Prod.fst
      (fun lr => postprocess lr.1 (resolveValue (sectionize text) text lr.2)) label
      (expand_wildcards rules 30) _ h2
  rw [hstep, row0_get, if_pos h1]

/-- Closed instantiation of `unconfigured_labels_left_empty`: an empty
rule set leaves the schema label `dob` empty. -/
theorem unconfigured_labels_left_empty_witness :
    alGet (extract ["dob".data] "dob: 01/02/1950".data []) "dob".data = some [] :=
  unconfigured_labels_left_empty ["dob".data] "dob: 01/02/1950".data [] "dob".data
    (by decide) (by intro lr hlr; simp [expand_wildcards] at hlr)

/-- The amended C3: a rule whose `type` is neither `single_line` nor
`paragraph` (in particular every `regex` rule) contributes only empty
strings, so every value in the extracted row is empty when all loaded
rules have such types. -/
theorem regex_rules_resolve_empty (labels : List Str) (text : Str)
    (rules : List (Str × Rule))
    (h : ∀ lr ∈ rules, lr.2.type ≠ "single_line".data ∧ lr.2.type ≠ "paragraph".data) :
    ∀ p ∈ extract labels text rules, p.2 = ([] : Str) := by
  intro p hp
  have hp' : p ∈ (expand_wildcards rules 30).foldl
      (fun row lr => alSet row lr.1 (postprocess lr.1 (resolveValue (sectionize text) text lr.2)))
      (labels.foldl (fun r lab => alSet r lab ([] : Str)) []) := hp
  rcases mem_foldl_alSet Prod.fst
      (fun lr => postprocess lr.1 (resolveValue (sectionize text) text lr.2))
      (expand_wildcards rules 30) _ p hp' with h1 | h1
  · exact row0_values labels p h1
  · rcases h1 with ⟨lr, hlr, hplr⟩
    rcases expand_wildcards_types rules 30 lr hlr with ⟨lr0, hlr0, htype⟩
    rcases h lr0 hlr0 with ⟨hsl, hpar⟩
    have hv : resolveValue (sectionize text) text lr.2 = [] := by
      rw [resolveValue]
      simp only [htype]
      rw [if_neg hsl, if_neg hpar]
    rw [hplr]
    simp only [hv]
    exact postprocess_nil _

/-- Closed instantiation of `regex_rules_resolve_empty` on a regex rule
whose pattern matches in the document: the row entry for `mrn` is empty. -/
theorem regex_rules_resolve_empty_witness :
    (("mrn".data, ([] : Str))).2 = ([] : Str) :=
  regex_rules_resolve_empty ["mrn".data] "Record MRN: 12345 End".data
    [("mrn".data,
      (⟨"regex".data, ["zzz".data], some "MRN: (12345)".data, none, none⟩ : Rule))]
    (by decide) ("mrn".data, ([] : Str)) (by decide)

/-- The amended C4: when the schema labels are distinct and every expanded
rule label belongs to the schema, the row returned by `extract` has
exactly the schema labels as keys, in schema order, and the written row
has exactly one cell per schema column. -/
theorem row_keys_schema_exact (labels : List Str) (text : Str)
    (rules : List (Str × Rule))
    (h1 : labels.Nodup)
    (h2 : ∀ lr ∈ expand_wildcards rules 30, lr.1 ∈ labels) :
    (extract labels text rules).map Prod.fst = labels ∧
    (write_row (extract labels text rules) labels).length = labels.length := by
  have hrow0 := row0_keys labels h1
  have hstep : (extract labels text rules).map Prod.fst =
      (labels.foldl (fun r lab => alSet r lab ([] : Str)) []).map Prod.fst :=
    foldl_alSet_keys_mem Prod.fst
      (fun lr => postprocess lr.1 (resolveValue (sectionize text) text lr.2))
      (expand_wildcards rules 30) _ (by rw [hrow0]; exact h2)
  exact ⟨hstep.trans hrow0, by simp [write_row]⟩

/-- Closed instantiation of `row_keys_schema_exact`. -/
theorem row_keys_schema_exact_witness :
    (extract ["last".data, "first".data] "NAME:\nSmith, John".data
        [("last".data,
          (⟨"single_line".data, ["name".data], none, none, none⟩ : Rule))]).map
        Prod.fst =
      ["last".data, "first".data] :=
  (row_keys_schema_exact ["last".data, "first".data] "NAME:\nSmith, John".data
    [("last".data, (⟨"single_line".data, ["name".data], none, none, none⟩ : Rule))]
    (by decide) (by decide)).1

/-- The C5 claim: expanding a single wildcard template with `maxRepeat = N ≥ 1`
yields exactly `N` concrete rules, the marker substituted with `1..N`,
labels pairwise distinct, `row` attributes `0..N-1` in that order; a
template without the marker is emitted unchanged as a single rule. -/
theorem wildcard_expansion_spec (label label₂ : Str) (rule rule₂ : Rule) (N : Nat)
    (h1 : 1 ≤ N) (h2 : '*' ∈ label) (h3 : '*' ∉ label₂) :
    expand_wildcards [(label, rule)] N =
      (List.range N).map
        (fun k => (replaceStar label (natStr (k + 1)), { rule with row := some k })) ∧
    (expand_wildcards [(label, rule)] N).length = N ∧
    ((List.range N).map (fun k => replaceStar label (natStr (k + 1)))).Nodup ∧
    expand_wildcards [(label₂, rule₂)] N = [(label₂, rule₂)] := by
  have hcont : label.contains '*' = true := by
    simpa [List.contains] using h2
  have hncont : ¬ label₂.contains '*' = true := by
    simp only [List.contains]
    intro hc
    exact h3 (by simpa using hc)
  have hpw : List.Pairwise
      (fun a b : Nat =>
        replaceStar label (natStr (a + 1)) ≠ replaceStar label (natStr (b + 1)))
      (List.range N) := by
    refine (List.nodup_range N).imp ?_
    intro a b hab heq
    exact hab (by
      have := natStr_inj _ _ (replaceStar_inj label h2 _ _ heq)
      omega)
  have hexp : expand_wildcards [(label, rule)] N =
      (List.range N).map
        (fun k => (replaceStar label (natStr (k + 1)), { rule with row := some k })) := by
    show (if label.contains '*' then _ else _) = _
    rw [if_pos hcont]
    exact (foldl_alSet_fresh (fun k => replaceStar label (natStr (k + 1)))
      (fun k => { rule with row := some k }) (List.range N) [] (by simp) hpw).trans
      (List.nil_append _)
  refine ⟨hexp, by rw [hexp]; simp, List.pairwise_map.mpr hpw, ?_⟩
  show (if label₂.contains '*' then _ else _) = _
  rw [if_neg hncont]
  rfl

/-- Closed instantiation of `wildcard_expansion_spec` at `N = 2`. -/
theorem wildcard_expansion_spec_witness :
    expand_wildcards
        [("p*".data, (⟨"single_line".data, ["q".data], none, none, none⟩ : Rule))] 2 =
      (List.range 2).map
        (fun k => (replaceStar "p*".data (natStr (k + 1)),
          { (⟨"single_line".data, ["q".data], none, none, none⟩ : Rule) with
              row := some k })) :=
  (wildcard_expansion_spec "p*".data "dob".data
    (⟨"single_line".data, ["q".data], none, none, none⟩ : Rule)
    (⟨"single_line".data, ["q".data], none, none, none⟩ : Rule) 2
    (by decide) (by decide) (by decide)).1

/-- Refutation of default-rule synthesis: with an empty rule set, the
label `dob` is never attempted and stays empty, although resolving it
through the spec's synthesized default rule on the same document yields a
non-empty value. -/
theorem default_rule_never_applied_cex :
    alGet (extract ["dob".data] "dob: 01/02/1950".data []) "dob".data = some [] ∧
    spec_resolve_default "dob".data "dob: 01/02/1950".data = "01/02/1950".data := by
  exact ⟨by decide, by decide⟩

/-- Refutation of the regex strategy: a `regex` rule whose pattern matches
in the full document still resolves to the empty string, although the
spec's full-document-first regex resolution yields the captured value. -/
theorem regex_rule_full_text_cex :
    alGet
        (extract ["mrn".data] "Record MRN: 12345 End".data
          [("mrn".data,
            ⟨"regex".data, ["zzz".data], some "MRN: (12345)".data, none, none⟩)])
        "mrn".data =
      some [] ∧
    spec_regex_resolve "MRN: ".data "12345".data "Record MRN: 12345 End".data [] =
      "12345".data := by
  exact ⟨by decide, by decide⟩

/-- Refutation of the one-section round trip as claimed: re-inserting the
header with the lower-cased section name produces a line that fails the
upper/title casing test, so the re-sectionized text has no such section. -/
theorem sectionize_roundtrip_cex :
    sectionize "A:\nx".data = [("a".data, "x".data)] ∧
    alGet (sectionize "a:\nx".data) "a".data = none := by
  exact ⟨by decide, by decide⟩

/-- Refutation of the preamble-key criterion: a document whose first line
is the header `_PREAMBLE:` has no line before its first header, yet its
section mapping contains the reserved preamble name. -/
theorem preamble_key_cex :
    headerName "_PREAMBLE:".data = some "_preamble".data ∧
    alGet (sectionize "_PREAMBLE:".data) "_preamble".data = some [] := by
  exact ⟨by decide, by decide⟩

/-- Refutation of schema-exactness of the returned row: a concrete rule
whose label is outside the schema adds an extra entry to the row returned
by `extract`. -/
theorem row_extra_key_cex :
    (extract ["a".data] "t".data
        [("b".data, ⟨"single_line".data, ["b".data], none, none, none⟩)]).map
        Prod.fst =
      ["a".data, "b".data] ∧
    "b".data ∉ ["a".data] := by
  exact ⟨by decide, by decide⟩

end Extractor
